import Mathlib

/-!
Verification development for `elephant/spike_train_generation.py`.

The source module has one core function, `_homogeneous_process`, and two
thin adapters, `homogeneous_poisson_process` and `homogeneous_gamma_process`.
We embed the core shallowly:

* times and rates are exact rationals (the unit bookkeeping of the
  `quantities` package is external; all magnitudes are taken in one coherent
  unit system, and the unit-rescaling collaborator `rescale` becomes
  multiplication by a fixed nonnegative conversion factor `resc`);
* the random interval generator becomes an explicit stream `gen : ℕ → ℚ`
  of drawn values, consumed in order: the bulk draw of `number` samples
  consumes indices `0, …, number-1`, and each later single draw consumes
  the next index;
* the `while` loop of the underrun branch, which the source runs without
  any bound, is embedded with explicit fuel; exhausted fuel is `none`;
* the `assert number > 4` (and the NaN poisoning that a negative `n`
  causes in `np.sqrt`, which also makes the assert fail) is embedded as
  an `Option` failure in `sizing`.
-/

/-- Linear search for the least `m ≥ m₀` with `k ≤ m * m`, returning the
start of the remaining range when the fuel runs out. -/
def ceilSqrtAux (k : ℕ) : ℕ → ℕ → ℕ
  | m, 0 => m
  | m, fuel + 1 => if k ≤ m * m then m else ceilSqrtAux k (m + 1) fuel

/-- Least natural `m` with `k ≤ m * m`; this is the exact value of
`⌈Real.sqrt k⌉` for a natural `k` (proved below in `ceilSqrt_eq_ceil_sqrt`).
Used to render `np.ceil(n + 3 * np.sqrt(n))` for an integer `n` exactly, as
`n + ceilSqrt (9 * n)`. -/
def ceilSqrt (k : ℕ) : ℕ :=
  ceilSqrtAux k 0 k

/-- Lines 25-27 of the source, for a nonnegative integer `n`:
`number = np.ceil(n + 3 * np.sqrt(n))`, then
`if number < 100: number = min(5 + np.ceil(2 * n), 100)`.
Since `n` is an integer, `np.ceil(n + 3*np.sqrt(n)) = n + ⌈√(9n)⌉` and
`np.ceil(2 * n) = 2 * n` exactly. -/
def sizingNat (n : ℕ) : ℕ :=
  if n + ceilSqrt (9 * n) < 100 then min (5 + 2 * n) 100 else n + ceilSqrt (9 * n)

/-- Python `int(...)` truncates toward zero; on an exact rational this is
truncating division of numerator by denominator. Models line 24,
`n = int(((t_stop - t_start) * mean_rate).simplified)`. -/
def pyInt (q : ℚ) : ℤ :=
  q.num.tdiv q.den

/-- Lines 24-28 of the source: compute the sample count and run
`assert number > 4`.  A failing assert is `none`.  For a negative `n` the
source computes `np.sqrt(n) = NaN`, the `number < 100` test is false on NaN,
and `assert NaN > 4` fails, so that path is also `none`. -/
def sizing (nI : ℤ) : Option ℕ :=
  if nI < 0 then none
  else if 4 < sizingNat nI.toNat then some (sizingNat nI.toNat) else none

/-- Running cumulative sums starting from `acc`:
`cumsumFrom a [x, y, z] = [a+x, a+x+y, a+x+y+z]`. -/
def cumsumFrom (a : ℚ) : List ℚ → List ℚ
  | [] => []
  | x :: xs => (a + x) :: cumsumFrom (a + x) xs

/-- `np.cumsum` on a list of rationals. -/
def cumsum (l : List ℚ) : List ℚ :=
  cumsumFrom 0 l

/-- Left insertion index of `v` in `xs`: on a sorted list this is exactly
`xs.searchsorted(v)` with numpy's default `side='left'` (the number of
leading entries strictly below `v`). -/
def searchsortedLeft (xs : List ℚ) (v : ℚ) : ℕ :=
  (xs.takeWhile fun x => decide (x < v)).length

/-- Lines 29-31 of the source:
`isi = rescale(interval_generator(*args, size=number))`,
`spikes = np.cumsum(isi)`, `spikes += t_start`. -/
def bulkSpikes (gen : ℕ → ℚ) (resc t_start : ℚ) (number : ℕ) : List ℚ :=
  (cumsum ((List.range number).map fun k => resc * gen k)).map fun s => s + t_start

/-- Lines 37-41 of the source, the incremental-extension loop:
`while t_last < t_stop: extra_spikes.append(t_last); t_last = t_last + rescale(interval_generator(*args, size=1))[0]`.
`k` is the next unconsumed index of the draw stream, `fuel` bounds the
number of iterations we are willing to unfold; the source has no bound,
so a `none` result means the loop ran longer than `fuel`. -/
def extendSpikes (gen : ℕ → ℚ) (resc t_stop : ℚ) : ℕ → ℕ → ℚ → Option (List ℚ)
  | 0, _, _ => none
  | fuel + 1, k, tLast =>
      if tLast < t_stop then
        (extendSpikes gen resc t_stop fuel (k + 1) (tLast + resc * gen k)).map
          fun l => tLast :: l
      else some []

/-- Lines 29-45 of the source after the sample count is fixed: bulk draw,
fit check `i = spikes.searchsorted(t_stop)`, then either the underrun branch
(`i == len(spikes)`: seed `t_last = spikes[-1] + rescale(...)[0]`, run the
extension loop, concatenate) or truncation `spikes = spikes[:i]`. -/
def afterSizing (fuel : ℕ) (gen : ℕ → ℚ) (resc t_start t_stop : ℚ) (number : ℕ) :
    Option (List ℚ) :=
  if searchsortedLeft (bulkSpikes gen resc t_start number) t_stop
      = (bulkSpikes gen resc t_start number).length then
    (bulkSpikes gen resc t_start number).getLast?.bind fun tl =>
      (extendSpikes gen resc t_stop fuel (number + 1) (tl + resc * gen number)).map
        fun extra => bulkSpikes gen resc t_start number ++ extra
  else
    some ((bulkSpikes gen resc t_start number).take
      (searchsortedLeft (bulkSpikes gen resc t_start number) t_stop))

/-- The core `_homogeneous_process` up to output packaging: the event-time
list it computes, or `none` when the size assert fails or the fuel for the
unbounded extension loop runs out. -/
def homogeneousProcess (fuel : ℕ) (gen : ℕ → ℚ) (resc mean_rate t_start t_stop : ℚ) :
    Option (List ℚ) :=
  (sizing (pyInt ((t_stop - t_start) * mean_rate))).bind
    (afterSizing fuel gen resc t_start t_stop)

/-- The `neo.SpikeTrain` output container, reduced to the data the source
passes it: the event times and the window metadata. -/
structure SpikeTrain where
  eventTimes : List ℚ
  t_start : ℚ
  t_stop : ℚ
deriving DecidableEq

/-- Output packaging of `_homogeneous_process`: a raw array when
`as_array` is true, a `SpikeTrain` with window metadata otherwise. -/
inductive ProcOutput where
  | array (times : List ℚ)
  | train (st : SpikeTrain)
deriving DecidableEq

/-- The underlying numeric event-time sequence of either output form. -/
def ProcOutput.eventTimes : ProcOutput → List ℚ
  | .array ts => ts
  | .train st => st.eventTimes

/-- Lines 47-53 of the source: `_homogeneous_process` including the
`as_array` output packaging. -/
def homogeneousProcessOut (fuel : ℕ) (gen : ℕ → ℚ) (resc mean_rate t_start t_stop : ℚ)
    (as_array : Bool) : Option ProcOutput :=
  (homogeneousProcess fuel gen resc mean_rate t_start t_stop).map fun spikes =>
    if as_array then ProcOutput.array spikes
    else ProcOutput.train ⟨spikes, t_start, t_stop⟩

/-- Lines 83-84 of the source: `homogeneous_poisson_process` computes
`mean_interval = 1 / rate` and forwards to `_homogeneous_process` with the
exponential sampler applied to that single argument and mean rate `rate`.
`expGen` abstracts `np.random.exponential`: a family of draw streams indexed
by the scale argument. -/
def homogeneous_poisson_process (fuel : ℕ) (expGen : ℚ → ℕ → ℚ)
    (resc rate t_start t_stop : ℚ) (as_array : Bool) : Option ProcOutput :=
  homogeneousProcessOut fuel (expGen (1 / rate)) resc rate t_start t_stop as_array

/-- Lines 117-119 of the source: `homogeneous_gamma_process` computes
`rate = b / a`, `k, theta = a, 1 / b` and forwards to `_homogeneous_process`
with the gamma sampler applied to `(k, theta)` and mean rate `b / a`.
`gamGen` abstracts `np.random.gamma`: a family of draw streams indexed by
the shape and scale arguments. -/
def homogeneous_gamma_process (fuel : ℕ) (gamGen : ℚ → ℚ → ℕ → ℚ)
    (resc a b t_start t_stop : ℚ) (as_array : Bool) : Option ProcOutput :=
  homogeneousProcessOut fuel (gamGen a (1 / b)) resc (b / a) t_start t_stop as_array

/-- Follows the words of the spec and of claim C2 (a refinement comparison
target, not source code): with `q` the dimensionless value
`(t_stop - t_start) * mean_rate`, the claimed sample count is
`ceil(q + 3 * sqrt(q))`, replaced by `min(5 + ceil(2 * q), 100)` whenever it
is below `100`. -/
noncomputable def sizingSpec (q : ℝ) : ℤ :=
  if ⌈q + 3 * Real.sqrt q⌉ < 100 then min (5 + ⌈2 * q⌉) 100 else ⌈q + 3 * Real.sqrt q⌉

/-! ### Basic facts about the sample-count computation -/

theorem ceilSqrtAux_sq_ge (k : ℕ) :
    ∀ fuel m, k ≤ (m + fuel) * (m + fuel) → k ≤ ceilSqrtAux k m fuel * ceilSqrtAux k m fuel := by
  intro fuel
  induction fuel with
  | zero => intro m h; rw [ceilSqrtAux]; rw [Nat.add_zero] at h; exact h
  | succ fuel ih =>
      intro m h
      rw [ceilSqrtAux]
      by_cases hm : k ≤ m * m
      · rw [if_pos hm]; exact hm
      · rw [if_neg hm]
        have heq : m + 1 + fuel = m + (fuel + 1) := by omega
        exact ih (m + 1) (heq ▸ h)

theorem ceilSqrtAux_le (k : ℕ) :
    ∀ fuel m j, m ≤ j → k ≤ j * j → ceilSqrtAux k m fuel ≤ j := by
  intro fuel
  induction fuel with
  | zero => intro m j hmj _; rw [ceilSqrtAux]; exact hmj
  | succ fuel ih =>
      intro m j hmj hj
      rw [ceilSqrtAux]
      by_cases hm : k ≤ m * m
      · simpa [hm] using hmj
      · rw [if_neg hm]
        refine ih (m + 1) j ?_ hj
        rcases Nat.eq_or_lt_of_le hmj with rfl | h
        · exact absurd hj hm
        · exact h

theorem ceilSqrt_sq_ge (k : ℕ) : k ≤ ceilSqrt k * ceilSqrt k := by
  refine ceilSqrtAux_sq_ge k k 0 ?_
  rcases Nat.eq_zero_or_pos k with rfl | hk
  · simp
  · have : k * 1 ≤ k * k := Nat.mul_le_mul_left k hk
    simpa using this

theorem ceilSqrt_le (k j : ℕ) (h : k ≤ j * j) : ceilSqrt k ≤ j :=
  ceilSqrtAux_le k k 0 j (Nat.zero_le j) h

/-- `ceilSqrt` computes the ceiling of the real square root of a natural. -/
theorem ceilSqrt_eq_ceil_sqrt (k : ℕ) : (ceilSqrt k : ℤ) = ⌈Real.sqrt k⌉ := by
  have hknn : (0:ℝ) ≤ (k:ℝ) := by positivity
  have hs : Real.sqrt k ^ 2 = k := Real.sq_sqrt hknn
  have hsnn : 0 ≤ Real.sqrt k := Real.sqrt_nonneg _
  symm
  rw [Int.ceil_eq_iff]
  constructor
  · rcases Nat.eq_zero_or_pos (ceilSqrt k) with hc | hc
    · rw [hc]; push_cast; linarith
    · have hlt : ¬ k ≤ (ceilSqrt k - 1) * (ceilSqrt k - 1) := by
        intro hcon
        have := ceilSqrt_le k (ceilSqrt k - 1) hcon
        omega
      push_neg at hlt
      have hlt' : ((ceilSqrt k : ℝ) - 1) ^ 2 < (k : ℝ) := by
        have h1 : ((ceilSqrt k - 1 : ℕ) : ℝ) = (ceilSqrt k : ℝ) - 1 := by
          push_cast [hc]; ring
        have h2 : ((ceilSqrt k - 1 : ℕ) : ℝ) * ((ceilSqrt k - 1 : ℕ) : ℝ) < (k : ℝ) := by
          exact_mod_cast hlt
        nlinarith [h2, h1]
      push_cast
      nlinarith [hlt', hs, hsnn]
  · have h1 : (k : ℝ) ≤ (ceilSqrt k : ℝ) * (ceilSqrt k : ℝ) := by
      exact_mod_cast ceilSqrt_sq_ge k
    push_cast
    nlinarith [h1, hs, hsnn]

theorem sizingNat_eq_spec (n : ℕ) : (sizingNat n : ℤ) = sizingSpec (n : ℝ) := by
  have h9 : ((9 * n : ℕ) : ℝ) = 9 * (n : ℝ) := by push_cast; ring
  have h3 : 3 * Real.sqrt (n : ℝ) = Real.sqrt ((9 * n : ℕ) : ℝ) := by
    rw [h9, show (9 : ℝ) * n = 3 ^ 2 * n by ring,
      Real.sqrt_mul (by positivity) (n : ℝ), Real.sqrt_sq (by norm_num)]
  have hceil : ⌈(n : ℝ) + 3 * Real.sqrt (n : ℝ)⌉ = (n : ℤ) + (ceilSqrt (9 * n) : ℤ) := by
    rw [h3, add_comm, Int.ceil_add_nat, ceilSqrt_eq_ceil_sqrt]
    omega
  have h2n : ⌈2 * (n : ℝ)⌉ = ((2 * n : ℕ) : ℤ) := by
    rw [show 2 * (n : ℝ) = (((2 * n : ℕ) : ℤ) : ℝ) by push_cast; ring, Int.ceil_intCast]
  unfold sizingNat sizingSpec
  rw [hceil, h2n]
  by_cases hc : n + ceilSqrt (9 * n) < 100
  · have hc' : (n : ℤ) + (ceilSqrt (9 * n) : ℤ) < 100 := by exact_mod_cast hc
    rw [if_pos hc, if_pos hc']
    push_cast
    omega
  · have hc' : ¬ ((n : ℤ) + (ceilSqrt (9 * n) : ℤ) < 100) := by exact_mod_cast hc
    rw [if_neg hc, if_neg hc']
    push_cast
    ring

theorem pyInt_eq_floor (q : ℚ) (hq : 0 ≤ q) : pyInt q = ⌊q⌋ := by
  unfold pyInt
  rw [Int.tdiv_eq_ediv (Rat.num_nonneg.mpr hq) (by positivity)]
  exact Rat.floor_def.symm

theorem pyInt_nonneg (q : ℚ) (hq : 0 ≤ q) : 0 ≤ pyInt q :=
  Int.tdiv_nonneg (Rat.num_nonneg.mpr hq) (by positivity)

theorem sizingNat_gt_four (n : ℕ) : 4 < sizingNat n := by
  unfold sizingNat
  split_ifs with h
  · omega
  · omega

theorem sizing_eq_some (nI : ℤ) (h : 0 ≤ nI) : sizing nI = some (sizingNat nI.toNat) := by
  unfold sizing
  rw [if_neg (not_lt.mpr h), if_pos (sizingNat_gt_four nI.toNat)]

/-! ### Facts about cumulative sums and the candidate buffer -/

theorem cumsumFrom_length (a : ℚ) (l : List ℚ) : (cumsumFrom a l).length = l.length := by
  induction l generalizing a with
  | nil => rfl
  | cons x xs ih => simp [cumsumFrom, ih]

theorem mem_cumsumFrom_ge (a : ℚ) (l : List ℚ) (hl : ∀ x ∈ l, 0 ≤ x) :
    ∀ y ∈ cumsumFrom a l, a ≤ y := by
  induction l generalizing a with
  | nil => intro y hy; simp [cumsumFrom] at hy
  | cons x xs ih =>
      intro y hy
      have hx : 0 ≤ x := hl x (List.mem_cons_self x xs)
      rw [cumsumFrom] at hy
      rcases List.mem_cons.mp hy with rfl | hy
      · linarith
      · have := ih (a + x) (fun z hz => hl z (List.mem_cons_of_mem x hz)) y hy
        linarith

theorem cumsumFrom_sorted (a : ℚ) (l : List ℚ) (hl : ∀ x ∈ l, 0 ≤ x) :
    (cumsumFrom a l).Sorted (· ≤ ·) := by
  induction l generalizing a with
  | nil => exact List.sorted_nil
  | cons x xs ih =>
      rw [cumsumFrom, List.sorted_cons]
      exact ⟨mem_cumsumFrom_ge (a + x) xs (fun z hz => hl z (List.mem_cons_of_mem x hz)),
        ih (a + x) (fun z hz => hl z (List.mem_cons_of_mem x hz))⟩

theorem cumsumFrom_map_add (a c : ℚ) (l : List ℚ) :
    (cumsumFrom a l).map (fun s => s + c) = cumsumFrom (a + c) l := by
  induction l generalizing a with
  | nil => rfl
  | cons x xs ih =>
      rw [cumsumFrom, cumsumFrom, List.map_cons, ih (a + x)]
      have h1 : a + x + c = a + c + x := by ring
      rw [h1]

theorem bulkSpikes_eq_cumsumFrom (gen : ℕ → ℚ) (resc t_start : ℚ) (number : ℕ) :
    bulkSpikes gen resc t_start number
      = cumsumFrom t_start ((List.range number).map fun k => resc * gen k) := by
  unfold bulkSpikes cumsum
  rw [cumsumFrom_map_add, zero_add]

theorem bulkSpikes_length (gen : ℕ → ℚ) (resc t_start : ℚ) (number : ℕ) :
    (bulkSpikes gen resc t_start number).length = number := by
  rw [bulkSpikes_eq_cumsumFrom, cumsumFrom_length, List.length_map, List.length_range]

theorem bulkSpikes_isi_nonneg (gen : ℕ → ℚ) (resc : ℚ) (number : ℕ)
    (hg : ∀ k, 0 ≤ gen k) (hr : 0 ≤ resc) :
    ∀ x ∈ (List.range number).map fun k => resc * gen k, 0 ≤ x := by
  intro x hx
  rcases List.mem_map.mp hx with ⟨k, _, rfl⟩
  exact mul_nonneg hr (hg k)

theorem mem_bulkSpikes_ge (gen : ℕ → ℚ) (resc t_start : ℚ) (number : ℕ)
    (hg : ∀ k, 0 ≤ gen k) (hr : 0 ≤ resc) :
    ∀ y ∈ bulkSpikes gen resc t_start number, t_start ≤ y := by
  rw [bulkSpikes_eq_cumsumFrom]
  exact mem_cumsumFrom_ge t_start _ (bulkSpikes_isi_nonneg gen resc number hg hr)

theorem bulkSpikes_sorted (gen : ℕ → ℚ) (resc t_start : ℚ) (number : ℕ)
    (hg : ∀ k, 0 ≤ gen k) (hr : 0 ≤ resc) :
    (bulkSpikes gen resc t_start number).Sorted (· ≤ ·) := by
  rw [bulkSpikes_eq_cumsumFrom]
  exact cumsumFrom_sorted t_start _ (bulkSpikes_isi_nonneg gen resc number hg hr)

/-! ### Facts about the fit check -/

theorem searchsortedLeft_full (xs : List ℚ) (v : ℚ)
    (h : searchsortedLeft xs v = xs.length) : ∀ x ∈ xs, x < v := by
  unfold searchsortedLeft at h
  have heq : xs.takeWhile (fun x => decide (x < v)) = xs :=
    (List.takeWhile_prefix _).eq_of_length h
  intro x hx
  rw [← heq] at hx
  simpa using List.mem_takeWhile_imp hx

theorem take_searchsortedLeft (xs : List ℚ) (v : ℚ) :
    xs.take (searchsortedLeft xs v) = xs.takeWhile (fun x => decide (x < v)) := by
  unfold searchsortedLeft
  exact (List.prefix_iff_eq_take.mp (List.takeWhile_prefix _)).symm

theorem sorted_le_getLast (l : List ℚ) (hl : l.Sorted (· ≤ ·)) (b : ℚ)
    (hb : l.getLast? = some b) : ∀ a ∈ l, a ≤ b := by
  rcases List.getLast?_eq_some_iff.mp hb with ⟨ys, rfl⟩
  intro a ha
  rcases List.mem_append.mp ha with ha | ha
  · exact (List.pairwise_append.mp hl).2.2 a ha b (List.mem_singleton_self b)
  · rw [List.mem_singleton.mp ha]

/-! ### Facts about the incremental-extension loop -/

theorem extendSpikes_spec (gen : ℕ → ℚ) (resc t_stop : ℚ)
    (hg : ∀ j, 0 ≤ gen j) (hr : 0 ≤ resc) :
    ∀ (fuel k : ℕ) (t0 : ℚ) (l : List ℚ), extendSpikes gen resc t_stop fuel k t0 = some l →
      (∀ t ∈ l, t0 ≤ t ∧ t < t_stop) ∧ l.Sorted (· ≤ ·) := by
  intro fuel
  induction fuel with
  | zero => intro k t0 l h; rw [extendSpikes] at h; exact absurd h (by simp)
  | succ fuel ih =>
      intro k t0 l h
      rw [extendSpikes] at h
      by_cases hc : t0 < t_stop
      · rw [if_pos hc] at h
        rcases Option.map_eq_some'.mp h with ⟨l', hl', rfl⟩
        rcases ih (k + 1) (t0 + resc * gen k) l' hl' with ⟨hmem, hsorted⟩
        have hstep : 0 ≤ resc * gen k := mul_nonneg hr (hg k)
        constructor
        · intro t ht
          rcases List.mem_cons.mp ht with rfl | ht
          · exact ⟨le_refl t, hc⟩
          · rcases hmem t ht with ⟨h1, h2⟩
            exact ⟨by linarith, h2⟩
        · rw [List.sorted_cons]
          refine ⟨fun b hb => ?_, hsorted⟩
          rcases hmem b hb with ⟨h1, _⟩
          linarith
      · rw [if_neg hc] at h
        rcases Option.some.injEq _ _ ▸ h with rfl
        exact ⟨fun t ht => absurd ht (List.not_mem_nil t), List.sorted_nil⟩

/-! ### Claim theorems -/

/-- Claim C1: for every call to the core sampler with `t_start < t_stop`,
a nonnegative rescale factor and an interval generator that returns only
nonnegative values, every event time `t` of a returned sequence satisfies
`t_start ≤ t < t_stop`, and the sequence is non-decreasing. -/
theorem spike_times_within_window_and_monotone
    (fuel : ℕ) (gen : ℕ → ℚ) (resc mean_rate t_start t_stop : ℚ) (spikes : List ℚ)
    (_hw : t_start < t_stop) (hg : ∀ k, 0 ≤ gen k) (hr : 0 ≤ resc)
    (h : homogeneousProcess fuel gen resc mean_rate t_start t_stop = some spikes) :
    (∀ t ∈ spikes, t_start ≤ t ∧ t < t_stop) ∧ spikes.Sorted (· ≤ ·) := by
  rcases Option.bind_eq_some.mp h with ⟨number, _hs, ha⟩
  unfold afterSizing at ha
  have hbge := mem_bulkSpikes_ge gen resc t_start number hg hr
  have hbsorted := bulkSpikes_sorted gen resc t_start number hg hr
  by_cases hcase : searchsortedLeft (bulkSpikes gen resc t_start number) t_stop
      = (bulkSpikes gen resc t_start number).length
  · rw [if_pos hcase] at ha
    rcases Option.bind_eq_some.mp ha with ⟨tl, hlast, hmap⟩
    rcases Option.map_eq_some'.mp hmap with ⟨extra, hex, rfl⟩
    have hallb := searchsortedLeft_full _ _ hcase
    have htl_mem := List.mem_of_getLast?_eq_some hlast
    have htl_ub := sorted_le_getLast _ hbsorted tl hlast
    have hstep : 0 ≤ resc * gen number := mul_nonneg hr (hg number)
    rcases extendSpikes_spec gen resc t_stop hg hr fuel (number + 1)
      (tl + resc * gen number) extra hex with ⟨hexmem, hexsorted⟩
    constructor
    · intro t ht
      rcases List.mem_append.mp ht with ht | ht
      · exact ⟨hbge t ht, hallb t ht⟩
      · rcases hexmem t ht with ⟨h1, h2⟩
        have h3 := hbge tl htl_mem
        exact ⟨by linarith, h2⟩
    · refine List.pairwise_append.mpr ⟨hbsorted, hexsorted, ?_⟩
      intro a ha' b hb
      have h1 := htl_ub a ha'
      rcases hexmem b hb with ⟨h2, _⟩
      linarith
  · rw [if_neg hcase] at ha
    have hsp : spikes
        = (bulkSpikes gen resc t_start number).take
            (searchsortedLeft (bulkSpikes gen resc t_start number) t_stop) :=
      (Option.some_inj.mp ha).symm
    constructor
    · intro t ht
      rw [hsp, take_searchsortedLeft] at ht
      have hmem : t ∈ bulkSpikes gen resc t_start number :=
        (List.takeWhile_prefix _).sublist.subset ht
      have hlt : t < t_stop := by simpa using List.mem_takeWhile_imp ht
      exact ⟨hbge t hmem, hlt⟩
    · rw [hsp]
      exact List.Pairwise.sublist (List.take_sublist _ _) hbsorted

/-- Witness for C1 at a concrete input: `fuel = 1`, the constant-1 generator,
`resc = 1`, `mean_rate = 0`, window `[0, 1)`; the call returns `some []`. -/
theorem spike_times_within_window_and_monotone_witness :
    (∀ t ∈ ([] : List ℚ), (0 : ℚ) ≤ t ∧ t < 1) ∧ ([] : List ℚ).Sorted (· ≤ ·) :=
  spike_times_within_window_and_monotone 1 (fun _ => 1) 1 0 0 1 []
    (by norm_num) (fun _ => by norm_num) (by norm_num)
    (by norm_num [homogeneousProcess, afterSizing, pyInt, sizing, sizingNat, ceilSqrt,
      ceilSqrtAux, bulkSpikes, cumsum, cumsumFrom, List.range_succ, searchsortedLeft,
      List.takeWhile])

/-- Every point the extension loop appends is strictly below `t_stop`,
with no sign assumption on the drawn intervals. -/
theorem extendSpikes_mem_lt (gen : ℕ → ℚ) (resc t_stop : ℚ) :
    ∀ (fuel k : ℕ) (t0 : ℚ) (l : List ℚ), extendSpikes gen resc t_stop fuel k t0 = some l →
      ∀ t ∈ l, t < t_stop := by
  intro fuel
  induction fuel with
  | zero => intro k t0 l h; rw [extendSpikes] at h; exact absurd h (by simp)
  | succ fuel ih =>
      intro k t0 l h t ht
      rw [extendSpikes] at h
      by_cases hc : t0 < t_stop
      · rw [if_pos hc] at h
        rcases Option.map_eq_some'.mp h with ⟨l', hl', rfl⟩
        rcases List.mem_cons.mp ht with rfl | ht'
        · exact hc
        · exact ih (k + 1) (t0 + resc * gen k) l' hl' t ht'
      · rw [if_neg hc] at h
        rcases Option.some_inj.mp h with rfl
        exact absurd ht (List.not_mem_nil t)

/-- Claim C3: the extension loop checks `t_last < t_stop` before appending,
so every point it appends is strictly below `t_stop`; when the seed already
reaches `t_stop` nothing is appended (the final overshoot point is never
appended); and when the seed is below `t_stop` it is the first appended
point (append first, then advance). -/
theorem extension_checks_before_append
    (gen : ℕ → ℚ) (resc t_stop : ℚ) (fuel k : ℕ) (t0 : ℚ) (l : List ℚ)
    (h : extendSpikes gen resc t_stop fuel k t0 = some l) :
    (∀ t ∈ l, t < t_stop) ∧ (t_stop ≤ t0 → l = []) ∧ (t0 < t_stop → l.head? = some t0) := by
  refine ⟨extendSpikes_mem_lt gen resc t_stop fuel k t0 l h, ?_, ?_⟩
  all_goals rcases fuel with _ | fuel
  · intro hstop; rw [extendSpikes] at h; exact absurd h (by simp)
  · intro hstop
    rw [extendSpikes, if_neg (not_lt.mpr hstop)] at h
    exact (Option.some_inj.mp h).symm
  · intro hc; rw [extendSpikes] at h; exact absurd h (by simp)
  · intro hc
    rw [extendSpikes, if_pos hc] at h
    rcases Option.map_eq_some'.mp h with ⟨l', _, rfl⟩
    rfl

/-- Witness for C3 at a concrete input: three units of fuel, unit intervals,
seed `1`, boundary `2`; the loop appends exactly `[1]`. -/
theorem extension_checks_before_append_witness :
    (∀ t ∈ [(1:ℚ)], t < 2) ∧ ((2:ℚ) ≤ 1 → [(1:ℚ)] = [])
      ∧ ((1:ℚ) < 2 → [(1:ℚ)].head? = some 1) :=
  extension_checks_before_append (fun _ => 1) 1 2 3 0 1 [1]
    (by norm_num [extendSpikes])

/-- Claim C4: whenever the dimensionless product `(t_stop - t_start) * mean_rate`
is nonnegative, the computed sample count exists (the `assert number > 4`
never fails) and is strictly greater than four. -/
theorem sample_count_exceeds_four (q : ℚ) (hq : 0 ≤ q) :
    ∃ number, sizing (pyInt q) = some number ∧ 4 < number :=
  ⟨sizingNat (pyInt q).toNat, sizing_eq_some (pyInt q) (pyInt_nonneg q hq),
    sizingNat_gt_four (pyInt q).toNat⟩

/-- Witness for C4 at the concrete input `q = 1/2` (a window-rate product
below one, the boundary case the spec highlights). -/
theorem sample_count_exceeds_four_witness :
    ∃ number, sizing (pyInt (1 / 2)) = some number ∧ 4 < number :=
  sample_count_exceeds_four (1 / 2) (by norm_num)

/-- Claim C5: when the insertion index of `t_stop` in the candidate buffer is
strictly below the buffer length, the result is exactly the first `i`
candidate entries, all strictly before `t_stop`, and no incremental
extension is performed (the result does not depend on the loop fuel). -/
theorem surplus_buffer_truncates
    (fuel : ℕ) (gen : ℕ → ℚ) (resc mean_rate t_start t_stop : ℚ) (number : ℕ)
    (hs : sizing (pyInt ((t_stop - t_start) * mean_rate)) = some number)
    (hlt : searchsortedLeft (bulkSpikes gen resc t_start number) t_stop
      < (bulkSpikes gen resc t_start number).length) :
    homogeneousProcess fuel gen resc mean_rate t_start t_stop
      = some ((bulkSpikes gen resc t_start number).take
          (searchsortedLeft (bulkSpikes gen resc t_start number) t_stop))
    ∧ ∀ t ∈ (bulkSpikes gen resc t_start number).take
          (searchsortedLeft (bulkSpikes gen resc t_start number) t_stop), t < t_stop := by
  constructor
  · unfold homogeneousProcess
    rw [hs, Option.some_bind]
    unfold afterSizing
    rw [if_neg (Nat.ne_of_lt hlt)]
  · intro t ht
    rw [take_searchsortedLeft] at ht
    simpa using List.mem_takeWhile_imp ht

/-- Witness for C5 at a concrete input: `mean_rate = 0`, window `[0, 1)`,
constant-1 generator; the buffer `[1, 2, 3, 4, 5]` has insertion index `0`,
and the call truncates to the empty prefix. -/
theorem surplus_buffer_truncates_witness :
    homogeneousProcess 1 (fun _ => 1) 1 0 0 1
      = some ((bulkSpikes (fun _ => 1) 1 0 5).take
          (searchsortedLeft (bulkSpikes (fun _ => 1) 1 0 5) 1))
    ∧ ∀ t ∈ (bulkSpikes (fun _ => 1) 1 0 5).take
          (searchsortedLeft (bulkSpikes (fun _ => 1) 1 0 5) 1), t < 1 :=
  surplus_buffer_truncates 1 (fun _ => 1) 1 0 0 1 5
    (by norm_num [pyInt, sizing, sizingNat, ceilSqrt, ceilSqrtAux])
    (by norm_num [bulkSpikes, cumsum, cumsumFrom, List.range_succ, searchsortedLeft,
      List.takeWhile])

/-- Counterexample to claim C2 as stated: at the call with `t_start = 0`,
`t_stop = 1/2`, `mean_rate = 1` the dimensionless product is `1/2`; the code
first truncates it with `int(...)` to `0` and draws `5` samples, while the
formula of the claim applied to `n = 1/2` demands
`ceil(1/2 + 3 * sqrt(1/2)) = 3 < 100`, hence `min(5 + ceil(1), 100) = 6`
samples. -/
theorem sizing_spec_counterexample :
    sizing (pyInt (((1 / 2 : ℚ) - 0) * 1)) = some 5
      ∧ sizingSpec (1 / 2 : ℝ) = 6 ∧ (5 : ℤ) ≠ 6 := by
  have hp : pyInt (((1 / 2 : ℚ) - 0) * 1) = 0 := by
    rw [show (((1 / 2 : ℚ) - 0) * 1) = 1 / 2 by norm_num,
      pyInt_eq_floor (1 / 2) (by norm_num)]
    norm_num
  refine ⟨by rw [hp]; norm_num [sizing, sizingNat, ceilSqrt, ceilSqrtAux], ?_, by norm_num⟩
  have hs2 : Real.sqrt (1 / 2) ^ 2 = 1 / 2 := Real.sq_sqrt (by norm_num)
  have hsnn : 0 ≤ Real.sqrt (1 / 2 : ℝ) := Real.sqrt_nonneg _
  have h1 : ⌈(1 / 2 : ℝ) + 3 * Real.sqrt (1 / 2)⌉ = 3 := by
    rw [Int.ceil_eq_iff]
    constructor
    · push_cast
      nlinarith [hs2, hsnn]
    · push_cast
      nlinarith [hs2, hsnn]
  have h2 : ⌈2 * (1 / 2 : ℝ)⌉ = 1 := by norm_num
  unfold sizingSpec
  rw [h1, h2]
  norm_num

/-- Claim C2 amended: the source truncates the dimensionless product
`(t_stop - t_start) * mean_rate` to an integer with Python `int(...)`
(the floor, for a nonnegative product) before sizing; on that truncated
value `n` the sample count is exactly the claimed formula
`ceil(n + 3*sqrt(n))`, replaced by `min(5 + ceil(2n), 100)` when below 100. -/
theorem sizing_matches_spec_after_truncation (q : ℚ) (hq : 0 ≤ q) :
    sizing (pyInt q) = some (sizingNat (pyInt q).toNat)
      ∧ (sizingNat (pyInt q).toNat : ℤ) = sizingSpec ((pyInt q).toNat : ℝ)
      ∧ pyInt q = ⌊q⌋ :=
  ⟨sizing_eq_some _ (pyInt_nonneg q hq), sizingNat_eq_spec _, pyInt_eq_floor q hq⟩

/-- Witness for the amended claim C2 at the concrete product `q = 1/2`. -/
theorem sizing_matches_spec_after_truncation_witness :
    sizing (pyInt (1 / 2)) = some (sizingNat (pyInt (1 / 2)).toNat)
      ∧ (sizingNat (pyInt (1 / 2)).toNat : ℤ) = sizingSpec ((pyInt (1 / 2)).toNat : ℝ)
      ∧ pyInt (1 / 2) = ⌊(1 / 2 : ℚ)⌋ :=
  sizing_matches_spec_after_truncation (1 / 2) (by norm_num)

theorem extendSpikes_zero_none :
    ∀ (fuel k : ℕ), extendSpikes (fun _ => 0) 1 1 fuel k 0 = none := by
  intro fuel
  induction fuel with
  | zero => intro k; rw [extendSpikes]
  | succ fuel ih =>
      intro k
      rw [extendSpikes, if_pos (by norm_num)]
      have harg : (0 : ℚ) + 1 * (fun _ => (0 : ℚ)) k = 0 := by norm_num
      rw [harg, ih (k + 1)]
      rfl

/-- Counterexample to claim C6 as stated: with the (nonnegative) interval
generator that always returns `0`, `mean_rate = 1` and window `[0, 1)`, the
extension loop never advances `t_last`, so no amount of fuel makes the call
return: the source loops forever on this input. -/
theorem process_can_run_forever :
    ¬ ∃ (fuel : ℕ) (spikes : List ℚ),
        homogeneousProcess fuel (fun _ => 0) 1 1 0 1 = some spikes := by
  rintro ⟨fuel, spikes, h⟩
  have hs : sizing (pyInt (((1 : ℚ) - 0) * 1)) = some 7 := by
    rw [show (((1 : ℚ) - 0) * 1) = 1 by norm_num, pyInt_eq_floor 1 (by norm_num)]
    norm_num [sizing, sizingNat, ceilSqrt, ceilSqrtAux]
  have hb : bulkSpikes (fun _ => (0 : ℚ)) 1 0 7 = [0, 0, 0, 0, 0, 0, 0] := by
    norm_num [bulkSpikes, cumsum, cumsumFrom, List.range_succ]
  unfold homogeneousProcess at h
  rw [hs, Option.some_bind] at h
  unfold afterSizing at h
  rw [hb] at h
  rw [if_pos (by norm_num [searchsortedLeft, List.takeWhile])] at h
  rw [show [(0 : ℚ), 0, 0, 0, 0, 0, 0].getLast? = some 0 from rfl, Option.some_bind] at h
  rw [show (0 : ℚ) + 1 * (fun _ => (0 : ℚ)) 7 = 0 by norm_num] at h
  rw [extendSpikes_zero_none fuel 8] at h
  exact absurd h (by simp)

theorem extendSpikes_total (gen : ℕ → ℚ) (resc t_stop ε : ℚ)
    (hstep : ∀ k, ε ≤ resc * gen k) :
    ∀ (N k : ℕ) (t0 : ℚ), t_stop - t0 ≤ (N : ℚ) * ε →
      ∃ l, extendSpikes gen resc t_stop (N + 1) k t0 = some l := by
  intro N
  induction N with
  | zero =>
      intro k t0 hb
      push_cast at hb
      refine ⟨[], ?_⟩
      rw [extendSpikes, if_neg (not_lt.mpr (by linarith))]
  | succ N ih =>
      intro k t0 hb
      by_cases hc : t0 < t_stop
      · have hstep' := hstep k
        have hb' : t_stop - (t0 + resc * gen k) ≤ (N : ℚ) * ε := by
          push_cast at hb ⊢
          linarith
        rcases ih (k + 1) (t0 + resc * gen k) hb' with ⟨l, hl⟩
        refine ⟨t0 :: l, ?_⟩
        rw [extendSpikes, if_pos hc, hl]
        rfl
      · exact ⟨[], by rw [extendSpikes, if_neg hc]⟩

/-- Claim C6 amended: the call terminates whenever the rescaled intervals
are bounded below by some positive `ε` (in particular for any generator
whose values stay away from zero); a generator that can return `0` (or
values shrinking to `0`) makes the extension loop run forever, as the
counterexample shows.  Termination is phrased as: some finite fuel makes
the embedded call return. -/
theorem process_terminates_with_positive_isi_bound
    (gen : ℕ → ℚ) (resc mean_rate t_start t_stop ε : ℚ)
    (hε : 0 < ε) (hstep : ∀ k, ε ≤ resc * gen k)
    (hq : 0 ≤ (t_stop - t_start) * mean_rate) :
    ∃ fuel spikes, homogeneousProcess fuel gen resc mean_rate t_start t_stop = some spikes := by
  have hs := sizing_eq_some _ (pyInt_nonneg _ hq)
  by_cases hcase : searchsortedLeft
      (bulkSpikes gen resc t_start
        (sizingNat (pyInt ((t_stop - t_start) * mean_rate)).toNat)) t_stop
    = (bulkSpikes gen resc t_start
        (sizingNat (pyInt ((t_stop - t_start) * mean_rate)).toNat)).length
  · have hlen := bulkSpikes_length gen resc t_start
      (sizingNat (pyInt ((t_stop - t_start) * mean_rate)).toNat)
    have hfour := sizingNat_gt_four (pyInt ((t_stop - t_start) * mean_rate)).toNat
    have hne : bulkSpikes gen resc t_start
        (sizingNat (pyInt ((t_stop - t_start) * mean_rate)).toNat) ≠ [] := by
      intro hnil
      rw [hnil] at hlen
      simp at hlen
      omega
    obtain ⟨tl, htl⟩ : ∃ tl, (bulkSpikes gen resc t_start
        (sizingNat (pyInt ((t_stop - t_start) * mean_rate)).toNat)).getLast? = some tl := by
      cases hgl : (bulkSpikes gen resc t_start
          (sizingNat (pyInt ((t_stop - t_start) * mean_rate)).toNat)).getLast? with
      | none => exact absurd (List.getLast?_eq_none_iff.mp hgl) hne
      | some tl => exact ⟨tl, rfl⟩
    obtain ⟨N, hN⟩ := exists_nat_ge
      ((t_stop - (tl + resc * gen (sizingNat (pyInt ((t_stop - t_start) * mean_rate)).toNat))) / ε)
    rw [div_le_iff₀ hε] at hN
    rcases extendSpikes_total gen resc t_stop ε hstep N
      (sizingNat (pyInt ((t_stop - t_start) * mean_rate)).toNat + 1)
      (tl + resc * gen (sizingNat (pyInt ((t_stop - t_start) * mean_rate)).toNat)) hN
      with ⟨l, hl⟩
    refine ⟨N + 1, bulkSpikes gen resc t_start
      (sizingNat (pyInt ((t_stop - t_start) * mean_rate)).toNat) ++ l, ?_⟩
    unfold homogeneousProcess
    rw [hs, Option.some_bind]
    unfold afterSizing
    rw [if_pos hcase, htl, Option.some_bind, hl]
    rfl
  · refine ⟨1, (bulkSpikes gen resc t_start
        (sizingNat (pyInt ((t_stop - t_start) * mean_rate)).toNat)).take
          (searchsortedLeft (bulkSpikes gen resc t_start
            (sizingNat (pyInt ((t_stop - t_start) * mean_rate)).toNat)) t_stop), ?_⟩
    unfold homogeneousProcess
    rw [hs, Option.some_bind]
    unfold afterSizing
    rw [if_neg hcase]

/-- Witness for the amended claim C6: unit intervals, `mean_rate = 1`,
window `[0, 1)`, bound `ε = 1`; some fuel makes the call return. -/
theorem process_terminates_with_positive_isi_bound_witness :
    ∃ fuel spikes, homogeneousProcess fuel (fun _ => 1) 1 1 0 1 = some spikes :=
  process_terminates_with_positive_isi_bound (fun _ => 1) 1 1 0 1 1
    (by norm_num) (fun k => by norm_num) (by norm_num)

/-- Claim C7: `homogeneous_poisson_process` computes `mean_interval = 1 / rate`
and returns exactly the result of the core sampler invoked with the
exponential generator applied to that single argument, mean rate `rate`,
and the same `t_start`, `t_stop`, `as_array`. -/
theorem poisson_forwards_to_sampler (fuel : ℕ) (expGen : ℚ → ℕ → ℚ)
    (resc rate t_start t_stop : ℚ) (as_array : Bool) :
    homogeneous_poisson_process fuel expGen resc rate t_start t_stop as_array
      = homogeneousProcessOut fuel (expGen (1 / rate)) resc rate t_start t_stop as_array :=
  rfl

/-- Claim C8: `homogeneous_gamma_process` computes `rate = b / a`,
`shape = a`, `scale = 1 / b` and returns exactly the result of the core
sampler invoked with the gamma generator applied to `(shape, scale)`, mean
rate `b / a`, and the same `t_start`, `t_stop`, `as_array`. -/
theorem gamma_forwards_to_sampler (fuel : ℕ) (gamGen : ℚ → ℚ → ℕ → ℚ)
    (resc a b t_start t_stop : ℚ) (as_array : Bool) :
    homogeneous_gamma_process fuel gamGen resc a b t_start t_stop as_array
      = homogeneousProcessOut fuel (gamGen a (1 / b)) resc (b / a) t_start t_stop as_array :=
  rfl

/-- Claim C9: for every fixed draw stream and parameters, the call with
`as_array = true` and the call with `as_array = false` carry the identical
underlying numeric event-time sequence; only the wrapping differs. -/
theorem as_array_same_event_times (fuel : ℕ) (gen : ℕ → ℚ)
    (resc mean_rate t_start t_stop : ℚ) :
    (homogeneousProcessOut fuel gen resc mean_rate t_start t_stop true).map
        ProcOutput.eventTimes
      = (homogeneousProcessOut fuel gen resc mean_rate t_start t_stop false).map
          ProcOutput.eventTimes := by
  unfold homogeneousProcessOut
  cases homogeneousProcess fuel gen resc mean_rate t_start t_stop with
  | none => rfl
  | some spikes => rfl

/-- Claim C10: the core call is deterministic given its random source: two
invocations with equal parameters whose interval generators return the same
stream of values produce identical outputs. -/
theorem process_deterministic_in_generator (fuel : ℕ) (gen1 gen2 : ℕ → ℚ)
    (resc mean_rate t_start t_stop : ℚ) (as_array : Bool)
    (h : ∀ k, gen1 k = gen2 k) :
    homogeneousProcessOut fuel gen1 resc mean_rate t_start t_stop as_array
      = homogeneousProcessOut fuel gen2 resc mean_rate t_start t_stop as_array := by
  have hg : gen1 = gen2 := funext h
  rw [hg]

/-- Witness for C10: two syntactically different constant-1 generators. -/
theorem process_deterministic_in_generator_witness :
    homogeneousProcessOut 1 (fun _ => 1) 1 0 0 1 true
      = homogeneousProcessOut 1 (fun k => 1 ^ k) 1 0 0 1 true :=
  process_deterministic_in_generator 1 (fun _ => 1) (fun k => 1 ^ k) 1 0 0 1 true
    (fun k => by norm_num)
